import Mathlib

/-!
Shallow embedding of the ChangeMonitor repository (client.py, server.py).

The client side (`Monitor` in client.py) watches a directory, filters events
through `_check_file`, debounces them per path with `threading.Timer` objects
in `_schedule_upload`, and uploads changed content in `_upload_file`, which
consults and updates the `uploaded_cache` dict.  Times and configured sizes
are modelled as rationals (the source uses Python floats for `time.time()`,
`delay`, `ttl`, and fractional megabyte bounds), file contents as lists of
byte values, and the two dicts (`uploaded_cache`, `file_timers`) as
association lists.  The md5 function from `hashlib` is an external library
and is kept as an explicit function parameter.
-/

/-- File contents (`f.read()` result) as a list of byte values. -/
abbrev Bytes := List Nat

/-- Lookup in an association list, mirroring Python `d[k]` / `k in d`. -/
def alLookup {α : Type} : List (String × α) → String → Option α
  | [], _ => none
  | (k, v) :: rest, q => if k = q then some v else alLookup rest q

/-- Insert or overwrite a key, mirroring Python `d[k] = v`. -/
def alInsert {α : Type} : List (String × α) → String → α → List (String × α)
  | [], q, v => [(q, v)]
  | (k, w) :: rest, q, v =>
      if k = q then (q, v) :: rest else (k, w) :: alInsert rest q v

/-- Remove a key, mirroring Python `del d[k]` (first occurrence). -/
def alErase {α : Type} : List (String × α) → String → List (String × α)
  | [], _ => []
  | (k, w) :: rest, q => if k = q then rest else (k, w) :: alErase rest q

/-- A key occurs at most once, the invariant of a Python dict. -/
def keysNodup {α : Type} (l : List (String × α)) : Prop :=
  (l.map Prod.fst).Nodup

/-- One entry of `Monitor.uploaded_cache`: `(md5_hash, timestamp)`. -/
structure CacheEntry where
  hash : String
  ts : ℚ
deriving DecidableEq, Repr

/-- `Monitor.uploaded_cache`: dict from absolute path to cache entry. -/
abbrev Cache := List (String × CacheEntry)

/-- `Monitor.file_timers`: dict from absolute path to a timer identifier. -/
abbrev TimerTable := List (String × Nat)

/-- The purge loop at the top of the `cache_lock` block in `_upload_file`:
entries with `now - ts > self.ttl` are collected and deleted; what remains
is exactly the entries with `now - ts <= ttl`. -/
def purgeCache (ttl now : ℚ) (c : Cache) : Cache :=
  c.filter (fun e => decide (now - e.2.ts ≤ ttl))

/-- `Monitor._cleanup_timer`: under the timer lock, delete the table entry
for the path if one is present (whichever timer it currently names). -/
def cleanupTimer (table : TimerTable) (p : String) : TimerTable :=
  match alLookup table p with
  | some _ => alErase table p
  | none => table

/-- Result of `open(filepath, 'rb')` followed by `f.read()`. -/
inductive ReadResult
  | ok (b : Bytes)
  | err
deriving DecidableEq, Repr

/-- Result of `requests.post`: a network-level failure
(`requests.exceptions.RequestException`), or a response carrying a status
code and whether `json.loads(resp.text)` succeeds. -/
inductive NetResult
  | netErr
  | resp (status : Nat) (bodyOk : Bool)
deriving DecidableEq, Repr

/-- Everything one `_upload_file` run observes from the outside world:
the `os.path.exists` check, the two file reads (the hash read and the
read performed by `requests.post` on the reopened file), the HTTP result,
and the `time.time()` sample taken before the cache lock. -/
structure UploadEnv where
  exists1 : Bool
  read1 : ReadResult
  read2 : ReadResult
  net : NetResult
  now : ℚ
deriving DecidableEq, Repr

/-- The terminal outcome of one `_upload_file` run, including the bytes
handed to `requests.post` when a post was attempted. -/
inductive UploadOutcome
  | errNotExist
  | errRead
  | skipUnchanged
  | errOpen
  | netFail (sent : Bytes)
  | httpDone (sent : Bytes) (status : Nat) (bodyOk : Bool)
deriving DecidableEq, Repr

/-- Blocking I/O actions performed by `_upload_file`. -/
inductive IOAction
  | readHash
  | openPost
  | httpPost
deriving DecidableEq, Repr

/-- An I/O action together with which of the two locks
(`cache_lock`, `timer_lock`) are held at that moment. -/
structure IOEvent where
  action : IOAction
  cacheHeld : Bool
  timerHeld : Bool
deriving DecidableEq, Repr

/-- The full result of one `_upload_file` run: the new cache, the new timer
table, the outcome, and the trace of blocking I/O actions with lock state. -/
structure UploadResult where
  cache : Cache
  table : TimerTable
  out : UploadOutcome
  io : List IOEvent
deriving DecidableEq, Repr

/-- `Monitor._upload_file`.  Control flow mirrors the source: existence
check, hash read (no lock held), then the `with self.cache_lock:` block
containing the TTL purge, the unchanged-content check, the second
`open` and `requests.post`, and the status handling; `_cleanup_timer`
is called on every exit path.  On status 200 the cache is written; on
any other status, on a JSON decode failure in a non-200 body, on a
request exception, or on any other exception, it is not. -/
def uploadFile (md5 : Bytes → String) (ttl : ℚ) (p : String)
    (env : UploadEnv) (cache : Cache) (table : TimerTable) : UploadResult :=
  if !env.exists1 then
    { cache := cache, table := cleanupTimer table p, out := .errNotExist, io := [] }
  else
    match env.read1 with
    | .err =>
        { cache := cache, table := cleanupTimer table p, out := .errRead,
          io := [⟨.readHash, false, false⟩] }
    | .ok b1 =>
        let file_hash := md5 b1
        let now := env.now
        let purged := purgeCache ttl now cache
        let skip : Bool :=
          match alLookup purged p with
          | some e => e.hash == file_hash
          | none => false
        if skip then
          { cache := purged, table := cleanupTimer table p, out := .skipUnchanged,
            io := [⟨.readHash, false, false⟩] }
        else
          match env.read2 with
          | .err =>
              { cache := purged, table := cleanupTimer table p, out := .errOpen,
                io := [⟨.readHash, false, false⟩, ⟨.openPost, true, false⟩] }
          | .ok b2 =>
              match env.net with
              | .netErr =>
                  { cache := purged, table := cleanupTimer table p,
                    out := .netFail b2,
                    io := [⟨.readHash, false, false⟩, ⟨.openPost, true, false⟩,
                           ⟨.httpPost, true, false⟩] }
              | .resp status bodyOk =>
                  { cache := if status = 200
                             then alInsert purged p ⟨file_hash, now⟩
                             else purged,
                    table := cleanupTimer table p,
                    out := .httpDone b2 status bodyOk,
                    io := [⟨.readHash, false, false⟩, ⟨.openPost, true, false⟩,
                           ⟨.httpPost, true, false⟩] }

/-- The dedup decision of `_upload_file` as the spec's `shouldUpload`
operation: purge expired entries, then report whether an upload is needed
(no entry for the path, or a differing fingerprint).  Returns the decision
together with the purged cache. -/
def shouldUpload (ttl : ℚ) (cache : Cache) (p : String) (h : String)
    (now : ℚ) : Bool × Cache :=
  let purged := purgeCache ttl now cache
  match alLookup purged p with
  | some e => (!(e.hash == h), purged)
  | none => (true, purged)

/-- Python `str.lower()` on one character (ASCII range, as the source's
configured suffixes and `Path.suffix` values are ASCII). -/
def lowerChar (c : Char) : Char :=
  if 'A' ≤ c ∧ c ≤ 'Z' then Char.ofNat (c.toNat + 32) else c

/-- Python `str.lower()` on a string. -/
def lowerStr (s : String) : String := String.mk (s.data.map lowerChar)

/-- The `monitor.allowed` configuration item: a single suffix string, a
list of suffixes, or any other (invalid) value. -/
inductive AllowedConf
  | str (s : String)
  | list (l : List String)
  | invalid
deriving DecidableEq, Repr

/-- The extension test of `Monitor._check_file` (client side):
`ext.lower() == self.allowed` for a string, `ext.lower() in self.allowed`
for a list; an invalid configuration yields no decision (the function
logs a warning and rejects the file). -/
def clientTarget (allowed : AllowedConf) (ext : String) : Option Bool :=
  match allowed with
  | .str s => some (lowerStr ext == s)
  | .list l => some (l.contains (lowerStr ext))
  | .invalid => none

/-- `Monitor._check_file`: reject when the path vanished or its size could
not be read; otherwise convert the configured fractional-megabyte bounds
with the binary factor and accept exactly the allowed-extension files whose
byte size lies within the inclusive bounds. -/
def checkFile (minSizeMB maxSizeMB : ℚ) (allowed : AllowedConf)
    (fileExists : Bool) (sizeRes : Option Nat) (ext : String) : Bool :=
  if !fileExists then false
  else
    match sizeRes with
    | none => false
    | some filesize =>
        let min_size := minSizeMB * 1024 * 1024
        let max_size := maxSizeMB * 1024 * 1024
        match clientTarget allowed ext with
        | none => false
        | some target =>
            if target then
              decide (min_size ≤ (filesize : ℚ) ∧ (filesize : ℚ) ≤ max_size)
            else false

/-- The extension variable of server.py `upload_file`:
`suffix.lower() if suffix else 'unknown'`. -/
def serverExt (suffix : String) : String :=
  if suffix.isEmpty then "unknown" else lowerStr suffix

/-- The extension test of server.py `upload_file`:
`ext == allowed.lower()` for a string, `ext in [item.lower() for item in
allowed]` for a list (the server lowercases the configured values too). -/
def serverTarget (allowed : AllowedConf) (ext : String) : Option Bool :=
  match allowed with
  | .str s => some (ext == lowerStr s)
  | .list l => some ((l.map lowerStr).contains ext)
  | .invalid => none

/-- The configuration read in `Monitor.__init__` that is subject to
validation. -/
structure ClientConf where
  min_size : ℚ
  max_size : ℚ
  delay : ℚ
  ttl : ℚ
deriving DecidableEq, Repr

/-- The mutable state created by a successful `Monitor.__init__`:
`uploaded_cache` and `file_timers`, both empty. -/
structure MonitorState where
  uploaded_cache : Cache
  file_timers : TimerTable
deriving DecidableEq, Repr

/-- The validation sequence of `Monitor.__init__`: each invalid
configuration item raises `ValueError` (modelled as `Except.error` with
the source's message); a valid configuration yields the initial state. -/
def monitorInit (c : ClientConf) : Except String MonitorState :=
  if c.min_size < 0 then
    .error "Configuration item monitor.client.min_size must be non-negative"
  else if c.max_size ≤ 0 then
    .error "Configuration item monitor.client.max_size must be positive"
  else if c.min_size > c.max_size then
    .error "Configuration item monitor.client.min_size must be less than or equal to monitor.client.max_size"
  else if c.delay < 0 then
    .error "Configuration item monitor.client.delay must be non-negative"
  else if c.ttl ≤ 0 then
    .error "Configuration item monitor.client.ttl must be positive"
  else
    .ok ⟨[], []⟩

/-- The construction step of `main` in client.py: a `ValueError` from the
`Monitor` constructor is caught, logged, and turned into `sys.exit(1)`;
otherwise the constructed monitor state is handed to the observer.  The
left summand is the process exit code. -/
def mainStart (c : ClientConf) : Sum Nat MonitorState :=
  match monitorInit c with
  | .error _ => .inl 1
  | .ok m => .inr m

/-- Lifecycle of one `threading.Timer` object: waiting, cancelled before
firing, currently executing its `_upload_file` body, or finished. -/
inductive TimerStatus
  | pending
  | canceled
  | firing
  | done
deriving DecidableEq, Repr

/-- One timer created by `_schedule_upload`: its path, the earliest time it
may fire (creation time plus `self.delay`), and its status. -/
structure TimerRec where
  path : String
  fireAt : ℚ
  status : TimerStatus
deriving DecidableEq, Repr

/-- The shared state of the scheduling subsystem: the configured delay and
ttl, all timer objects ever created (identified by creation index), the
`file_timers` table, the `uploaded_cache`, and the time of the last
observed action (used to keep interleavings in temporal order). -/
structure SchedState where
  delay : ℚ
  ttl : ℚ
  timers : List TimerRec
  table : TimerTable
  cache : Cache
  time : Option ℚ
deriving DecidableEq, Repr

/-- The state right after `Monitor.__init__`: no timers, empty dicts. -/
def initState (d ttl : ℚ) : SchedState :=
  { delay := d, ttl := ttl, timers := [], table := [], cache := [], time := none }

/-- Actions must carry nondecreasing times along a trace. -/
def timeOk (cur : Option ℚ) (t : ℚ) : Bool :=
  match cur with
  | none => true
  | some u => decide (u ≤ t)

/-- `threading.Timer.cancel`: effective only while the timer is still in
its waiting stage; a firing or finished timer is unaffected. -/
def cancelTimer (l : List TimerRec) (i : Nat) : List TimerRec :=
  match l[i]? with
  | some tm => if tm.status = .pending
               then l.set i { tm with status := .canceled }
               else l
  | none => l

/-- Set the status of timer `i` (used when it starts or finishes firing). -/
def setStatus (l : List TimerRec) (i : Nat) (st : TimerStatus) : List TimerRec :=
  match l[i]? with
  | some tm => l.set i { tm with status := st }
  | none => l

/-- `Monitor._schedule_upload` at time `t`, one atomic `timer_lock`
section: cancel the timer currently recorded for the path (if any), then
create a new timer due at `t + delay` and record it in the table. -/
def applySchedule (s : SchedState) (p : String) (t : ℚ) : SchedState :=
  let timers :=
    match alLookup s.table p with
    | some i => cancelTimer s.timers i
    | none => s.timers
  { s with
    timers := timers ++ [⟨p, t + s.delay, .pending⟩],
    table := alInsert s.table p timers.length,
    time := some t }

/-- One observable action of the concurrent system: a `_schedule_upload`
call, a timer starting to execute `_upload_file` (the Uploader invocation),
or a running `_upload_file` completing with the effects described by its
environment. -/
inductive SEvent
  | sched (p : String) (t : ℚ)
  | fire (i : Nat) (t : ℚ)
  | finish (i : Nat) (env : UploadEnv)
deriving DecidableEq, Repr

/-- The time an event carries. -/
def evTime : SEvent → ℚ
  | .sched _ t => t
  | .fire _ t => t
  | .finish _ env => env.now

/-- One step of the interleaving semantics.  `sched` is always enabled;
`fire i` requires timer `i` to be pending (not cancelled) and its delay to
have elapsed; `finish i` requires timer `i` to be executing and applies
`uploadFile` (including its final `_cleanup_timer`) to the shared state. -/
def stepEvent (md5 : Bytes → String) (s : SchedState) : SEvent → Option SchedState
  | .sched p t =>
      if timeOk s.time t then some (applySchedule s p t) else none
  | .fire i t =>
      match s.timers[i]? with
      | some tm =>
          if tm.status = .pending ∧ tm.fireAt ≤ t ∧ timeOk s.time t = true then
            some { s with timers := setStatus s.timers i .firing, time := some t }
          else none
      | none => none
  | .finish i env =>
      match s.timers[i]? with
      | some tm =>
          if tm.status = .firing ∧ timeOk s.time env.now = true then
            let r := uploadFile md5 s.ttl tm.path env s.cache s.table
            some { s with timers := setStatus s.timers i .done,
                          table := r.table, cache := r.cache,
                          time := some env.now }
          else none
      | none => none

/-- Run a trace of events; `none` when some event is not enabled. -/
def runTrace (md5 : Bytes → String) (s : SchedState) : List SEvent → Option SchedState
  | [] => some s
  | ev :: rest =>
      match stepEvent md5 s ev with
      | some s2 => runTrace md5 s2 rest
      | none => none

/-- The schedule calls of a trace, in order. -/
def schedEvs : List SEvent → List (String × ℚ)
  | [] => []
  | .sched p t :: rest => (p, t) :: schedEvs rest
  | .fire _ _ :: rest => schedEvs rest
  | .finish _ _ :: rest => schedEvs rest

/-- The number of Uploader invocations (timer firings) in a trace. -/
def fireCount : List SEvent → Nat
  | [] => 0
  | .fire _ _ :: rest => fireCount rest + 1
  | .sched _ _ :: rest => fireCount rest
  | .finish _ _ :: rest => fireCount rest

/-- How many timers are currently pending (armed and uncancelled). -/
def countPending (s : SchedState) : Nat :=
  (s.timers.filter (fun tm => tm.status == .pending)).length

/-- A state is quiescent when no timer is still pending. -/
def isComplete (s : SchedState) : Prop :=
  ∀ (k : Nat) (tm : TimerRec), s.timers[k]? = some tm → tm.status ≠ .pending

/-- A stand-in for the external `hashlib.md5` hexdigest used by concrete
evaluations (any function of the bytes works for them). -/
def md5c : Bytes → String := fun _ => "h"

/-- Environment of an `_upload_file` run that finds the file deleted
(`os.path.exists` is false), completing at time 1. -/
def env0 : UploadEnv := ⟨false, .err, .err, .netErr, 1⟩

/-- A trace of the scheduler (delay 1): a schedule at time 0, its timer
firing at time 1, a reschedule at time 1 while the upload runs, the upload
finishing (its `_cleanup_timer` deleting the fresh timer's table entry),
a further schedule at time 1, and both surviving timers firing at time 2. -/
def c3trace : List SEvent :=
  [.sched "p" 0, .fire 0 1, .sched "p" 1, .finish 0 env0, .sched "p" 1,
   .fire 1 2, .fire 2 2]

/-- Invariant of a single-path burst of schedule calls: after the first `j`
of the calls at times `ts` have been processed (and nothing else has
happened), there are `j` timers for the path, all but the newest cancelled,
the newest pending and due at its creation time plus the delay, the table
maps the path to the newest timer, and the clock reads the last call time. -/
def InvC1 (p : String) (d : ℚ) (ts : List ℚ) (j : Nat) (s : SchedState) : Prop :=
  s.delay = d ∧
  s.timers.length = j ∧
  s.table = (if j = 0 then [] else [(p, j - 1)]) ∧
  s.time = (if j = 0 then none else ts[j-1]?) ∧
  ∀ k : Nat, k < j → ∃ t : ℚ, ts[k]? = some t ∧
    s.timers[k]? = some ⟨p, t + d, if k = j - 1 then .pending else .canceled⟩

theorem alLookup_alInsert_self {α : Type} (l : List (String × α)) (k : String) (v : α) :
    alLookup (alInsert l k v) k = some v := by
  induction l with
  | nil => simp [alInsert, alLookup]
  | cons hd tl ih =>
      obtain ⟨k2, v2⟩ := hd
      by_cases h : k2 = k <;> simp [alInsert, alLookup, h, ih]

theorem alLookup_eq_none_iff {α : Type} (l : List (String × α)) (k : String) :
    alLookup l k = none ↔ k ∉ l.map Prod.fst := by
  induction l with
  | nil => simp [alLookup]
  | cons hd tl ih =>
      obtain ⟨k2, v2⟩ := hd
      by_cases h : k2 = k <;> simp [alLookup, h, ih]
      tauto

theorem alLookup_alErase_self {α : Type} (l : List (String × α)) (k : String)
    (hnd : keysNodup l) : alLookup (alErase l k) k = none := by
  induction l with
  | nil => simp [alErase, alLookup]
  | cons hd tl ih =>
      obtain ⟨k2, v2⟩ := hd
      simp only [keysNodup, List.map_cons, List.nodup_cons] at hnd
      by_cases h : k2 = k
      · subst h
        simpa [alErase, alLookup_eq_none_iff] using hnd.1
      · simp [alErase, alLookup, h, ih hnd.2]

theorem alLookup_cleanupTimer_self (table : TimerTable) (p : String)
    (hnd : keysNodup table) : alLookup (cleanupTimer table p) p = none := by
  unfold cleanupTimer
  cases h : alLookup table p with
  | none => simpa using h
  | some i => exact alLookup_alErase_self table p hnd

theorem alLookup_filter_none {α : Type} (f : String × α → Bool)
    (l : List (String × α)) (q : String) (h : alLookup l q = none) :
    alLookup (l.filter f) q = none := by
  induction l with
  | nil => simp [alLookup]
  | cons hd tl ih =>
      obtain ⟨k2, v2⟩ := hd
      by_cases hk : k2 = q
      · simp [alLookup, hk] at h
      · simp only [alLookup, if_neg hk] at h
        by_cases hf : f (k2, v2) = true <;>
          simp [List.filter_cons, hf, alLookup, hk, ih h]

theorem alLookup_filter {α : Type} (f : String × α → Bool)
    (l : List (String × α)) (q : String) (e : α) (hnd : keysNodup l) :
    alLookup (l.filter f) q = some e ↔
      (alLookup l q = some e ∧ f (q, e) = true) := by
  induction l with
  | nil => simp [alLookup]
  | cons hd tl ih =>
      obtain ⟨k2, v2⟩ := hd
      simp only [keysNodup, List.map_cons, List.nodup_cons] at hnd
      by_cases hk : k2 = q
      · subst hk
        have htl : alLookup tl k2 = none := (alLookup_eq_none_iff tl k2).mpr hnd.1
        by_cases hf : f (k2, v2) = true
        · simp [List.filter_cons, hf, alLookup]
          rintro rfl
          exact hf
        · have h0 : alLookup (tl.filter f) k2 = none := alLookup_filter_none f tl k2 htl
          simp only [Bool.not_eq_true] at hf
          simp [List.filter_cons, hf, alLookup, h0]
          rintro rfl
          exact hf
      · by_cases hf : f (k2, v2) = true <;>
          simp [List.filter_cons, hf, alLookup, hk, ih hnd.2]

/-- Claim C7: the eligibility size check accepts a file exactly when
`minSize*1024*1024 <= size <= maxSize*1024*1024`, the configured
fractional-megabyte bounds converted with the binary factor; a file of
exactly the minimum or exactly the maximum byte size is eligible, and one
byte outside either bound is not. -/
theorem c7_size_bounds (minMB maxMB : ℚ) (allowed : AllowedConf) (ext : String)
    (minB maxB : Nat)
    (hT : clientTarget allowed ext = some true)
    (hmin : (minB : ℚ) = minMB * 1024 * 1024)
    (hmax : (maxB : ℚ) = maxMB * 1024 * 1024)
    (h1 : 1 ≤ minB) (h2 : minB ≤ maxB) :
    (∀ size : Nat, checkFile minMB maxMB allowed true (some size) ext = true ↔
        (minMB * 1024 * 1024 ≤ (size : ℚ) ∧ (size : ℚ) ≤ maxMB * 1024 * 1024)) ∧
    checkFile minMB maxMB allowed true (some minB) ext = true ∧
    checkFile minMB maxMB allowed true (some maxB) ext = true ∧
    checkFile minMB maxMB allowed true (some (minB - 1)) ext = false ∧
    checkFile minMB maxMB allowed true (some (maxB + 1)) ext = false := by
  have hiff : ∀ size : Nat,
      checkFile minMB maxMB allowed true (some size) ext = true ↔
        (minMB * 1024 * 1024 ≤ (size : ℚ) ∧ (size : ℚ) ≤ maxMB * 1024 * 1024) := by
    intro size
    simp [checkFile, hT]
  have hsub : ((minB - 1 : ℕ) : ℚ) = (minB : ℚ) - 1 := by
    rw [Nat.cast_sub h1, Nat.cast_one]
  refine ⟨hiff, ?_, ?_, ?_, ?_⟩
  · rw [hiff]
    exact ⟨le_of_eq hmin.symm, by rw [← hmax]; exact_mod_cast h2⟩
  · rw [hiff]
    refine ⟨?_, le_of_eq hmax⟩
    rw [← hmin]
    exact_mod_cast h2
  · rw [Bool.eq_false_iff, Ne, hiff]
    rintro ⟨hA, -⟩
    rw [hsub, ← hmin] at hA
    linarith
  · rw [Bool.eq_false_iff, Ne, hiff]
    rintro ⟨-, hB⟩
    rw [Nat.cast_add, Nat.cast_one, ← hmax] at hB
    linarith

theorem c7_size_bounds_witness :
    checkFile (1/2) 1 (.str ".log") true (some 524288) ".LOG" = true ∧
    checkFile (1/2) 1 (.str ".log") true (some (524288 - 1)) ".LOG" = false :=
  ⟨(c7_size_bounds (1/2) 1 (.str ".log") ".LOG" 524288 1048576 (by decide)
      (by norm_num) (by norm_num) (by norm_num) (by norm_num)).2.1,
   (c7_size_bounds (1/2) 1 (.str ".log") ".LOG" 524288 1048576 (by decide)
      (by norm_num) (by norm_num) (by norm_num) (by norm_num)).2.2.2.1⟩

/-- Claim C8 counterexample: on the client, the configured suffix is
compared verbatim while only the file's suffix is lowercased, so altering
the case of the configured value changes the eligibility decision —
`".LOG"` and `".log"` are case-variants, yet configuring `".log"` accepts a
`.log` file and configuring `".LOG"` rejects it. -/
theorem c8_counterexample :
    lowerStr ".LOG" = lowerStr ".log" ∧
    clientTarget (.str ".log") ".log" = some true ∧
    clientTarget (.str ".LOG") ".log" = some false :=
  ⟨by decide, by decide, by decide⟩

/-- Claim C8 amended: the file's suffix is compared case-insensitively on
the client (changing its case never changes the decision), and the server
lowercases both the incoming extension and the configured values; but the
client compares the configured value verbatim (see the counterexample). -/
theorem c8_amended (allowed : AllowedConf) (e eA cs csA x : String)
    (hE : lowerStr e = lowerStr eA) (hC : lowerStr cs = lowerStr csA) :
    clientTarget allowed e = clientTarget allowed eA ∧
    serverTarget (.str cs) x = serverTarget (.str csA) x ∧
    serverTarget (.list [cs]) x = serverTarget (.list [csA]) x := by
  refine ⟨?_, ?_, ?_⟩
  · cases allowed <;> simp [clientTarget, hE]
  · simp [serverTarget, hC]
  · simp [serverTarget, hC]

theorem c8_amended_witness :
    clientTarget (.str ".log") ".LOG" = clientTarget (.str ".log") ".log" ∧
    serverTarget (.str ".TXT") ".txt" = serverTarget (.str ".txt") ".txt" ∧
    serverTarget (.list [".TXT"]) ".txt" = serverTarget (.list [".txt"]) ".txt" :=
  c8_amended (.str ".log") ".LOG" ".log" ".TXT" ".txt" ".txt" (by decide) (by decide)

/-- Claim C9: `Monitor` construction rejects with a `ValueError` exactly
the configurations with `min_size < 0`, `max_size <= 0`,
`min_size > max_size`, a negative delay, or a non-positive ttl; `main`
turns that error into exit code 1, so no monitor state (and hence no
per-file processing) exists under such a configuration. -/
theorem c9_config_validation (c : ClientConf) :
    ((c.min_size < 0 ∨ c.max_size ≤ 0 ∨ c.min_size > c.max_size ∨
        c.delay < 0 ∨ c.ttl ≤ 0) ↔ (∃ e, monitorInit c = .error e)) ∧
    ((∃ e, monitorInit c = .error e) →
      mainStart c = .inl 1 ∧ ∀ m, mainStart c ≠ .inr m) := by
  constructor
  · unfold monitorInit
    split_ifs with h1 h2 h3 h4 h5 <;> simp_all
  · rintro ⟨e, he⟩
    simp [mainStart, he]

theorem c9_config_validation_witness :
    mainStart ⟨-1, 1, 1, 300⟩ = Sum.inl 1 :=
  ((c9_config_validation ⟨-1, 1, 1, 300⟩).2
    ((c9_config_validation ⟨-1, 1, 1, 300⟩).1.mp (Or.inl (by decide)))).1

/-- Claim C10: `_upload_file` reads the file once to compute the
fingerprint and a second time to obtain the POST body; in an execution
where the contents change between the two reads, the fingerprint recorded
on success is the hash of the first read while the transmitted bytes are
the second read, so the recorded fingerprint is not the hash of the bytes
actually transmitted. -/
theorem c10_double_read (md5 : Bytes → String) (ttl : ℚ) (p : String)
    (b1 b2 : Bytes) (now : ℚ) (bodyOk : Bool) (hh : md5 b1 ≠ md5 b2) :
    (uploadFile md5 ttl p ⟨true, .ok b1, .ok b2, .resp 200 bodyOk, now⟩ [] []).out
        = .httpDone b2 200 bodyOk ∧
    alLookup (uploadFile md5 ttl p ⟨true, .ok b1, .ok b2, .resp 200 bodyOk, now⟩ [] []).cache p
        = some ⟨md5 b1, now⟩ ∧
    md5 b1 ≠ md5 b2 := by
  refine ⟨?_, ?_, hh⟩ <;>
    simp [uploadFile, purgeCache, alLookup]

theorem c10_double_read_witness :
    (uploadFile (fun b => if b.length ≤ 1 then "a" else "b") 300 "p"
        ⟨true, .ok [0], .ok [0, 0], .resp 200 true, 0⟩ [] []).out
      = .httpDone [0, 0] 200 true ∧
    alLookup (uploadFile (fun b => if b.length ≤ 1 then "a" else "b") 300 "p"
        ⟨true, .ok [0], .ok [0, 0], .resp 200 true, 0⟩ [] []).cache "p"
      = some ⟨"a", 0⟩ ∧
    ("a" : String) ≠ "b" :=
  c10_double_read (fun b => if b.length ≤ 1 then "a" else "b") 300 "p"
    [0] [0, 0] 0 true (by decide)

/-- Claim C2 counterexample: an HTTP 200 response whose body fails to
parse as JSON still records the fingerprint in the cache — the source
gates the cache write on the status code alone — so on a malformed
response body the cache is not left unchanged as the claim states. -/
theorem c2_counterexample :
    (uploadFile md5c 300 "p" ⟨true, .ok [1], .ok [1], .resp 200 false, 0⟩ [] []).out
      = .httpDone [1] 200 false ∧
    alLookup (uploadFile md5c 300 "p" ⟨true, .ok [1], .ok [1], .resp 200 false, 0⟩ [] []).cache "p"
      = some ⟨"h", 0⟩ :=
  ⟨by simp [uploadFile, purgeCache, alLookup, md5c],
   by simp [uploadFile, purgeCache, alLookup, md5c]⟩

/-- Claim C2 amended: when the file exists and the hash read succeeds, the
cache entry for the path is created or overwritten with the just-computed
fingerprint and current time exactly when the HTTP status is 200 —
regardless of whether the response body parses — and on every other
outcome (unchanged-content skip, failed reopen, network failure, non-200
status) the resulting cache is exactly the TTL-purged input cache, with no
entry written. -/
theorem c2_amended (md5 : Bytes → String) (ttl : ℚ) (p : String)
    (env : UploadEnv) (cache : Cache) (table : TimerTable) (b1 : Bytes)
    (hex : env.exists1 = true) (hr : env.read1 = .ok b1) :
    (∀ (sent : Bytes) (bodyOk : Bool),
        (uploadFile md5 ttl p env cache table).out = .httpDone sent 200 bodyOk →
        alLookup (uploadFile md5 ttl p env cache table).cache p
          = some ⟨md5 b1, env.now⟩) ∧
    ((∀ (sent : Bytes) (bodyOk : Bool),
        (uploadFile md5 ttl p env cache table).out ≠ .httpDone sent 200 bodyOk) →
      (uploadFile md5 ttl p env cache table).cache
        = purgeCache ttl env.now cache) := by
  obtain ⟨e1, r1, r2, net, now⟩ := env
  simp only [UploadEnv.exists1] at hex
  simp only [UploadEnv.read1] at hr
  subst hex
  subst hr
  simp only [UploadEnv.now]
  cases hlk : alLookup (purgeCache ttl now cache) p with
  | none =>
      cases r2 with
      | err => simp [uploadFile, hlk]
      | ok b2 =>
          cases net with
          | netErr => simp [uploadFile, hlk]
          | resp status bodyOk2 =>
              by_cases hst : status = 200
              · subst hst
                constructor
                · intro sent bodyOk hout
                  simp [uploadFile, hlk, alLookup_alInsert_self]
                · intro hno
                  exact absurd (by simp [uploadFile, hlk]) (hno b2 bodyOk2)
              · constructor
                · intro sent bodyOk hout
                  refine absurd ?_ hst
                  have hq : UploadOutcome.httpDone b2 status bodyOk2
                      = .httpDone sent 200 bodyOk := by
                    simpa [uploadFile, hlk] using hout
                  injection hq with q1 q2 q3
                · intro hno
                  simp [uploadFile, hlk, hst]
  | some e =>
      by_cases hh : (e.hash == md5 b1) = true
      · constructor
        · intro sent bodyOk hout
          simp [uploadFile, hlk, hh] at hout
        · intro hno
          simp [uploadFile, hlk, hh]
      · simp only [Bool.not_eq_true] at hh
        cases r2 with
        | err => simp [uploadFile, hlk, hh]
        | ok b2 =>
            cases net with
            | netErr => simp [uploadFile, hlk, hh]
            | resp status bodyOk2 =>
                by_cases hst : status = 200
                · subst hst
                  constructor
                  · intro sent bodyOk hout
                    simp [uploadFile, hlk, hh, alLookup_alInsert_self]
                  · intro hno
                    exact absurd (by simp [uploadFile, hlk, hh]) (hno b2 bodyOk2)
                · constructor
                  · intro sent bodyOk hout
                    refine absurd ?_ hst
                    have hq : UploadOutcome.httpDone b2 status bodyOk2
                        = .httpDone sent 200 bodyOk := by
                      simpa [uploadFile, hlk, hh] using hout
                    injection hq with q1 q2 q3
                  · intro hno
                    simp [uploadFile, hlk, hh, hst]

theorem c2_amended_witness :
    (uploadFile md5c 300 "p" ⟨true, .ok [1], .ok [2], .resp 404 true, 0⟩ [] []).cache
      = purgeCache 300 0 [] :=
  (c2_amended md5c 300 "p" ⟨true, .ok [1], .ok [2], .resp 404 true, 0⟩ [] [] [1]
      rfl rfl).2
    (by simp [uploadFile, purgeCache, alLookup, md5c])

/-- Claim C4: on every dedup query, entries whose age strictly exceeds the
ttl are purged before the path's entry is consulted; the decision is true
exactly when no entry survives for the path or the surviving fingerprint
differs, and false exactly on a match; hence an unchanged re-upload
arriving after the ttl has elapsed is not skipped, and `_upload_file`
skips (performing no network call) exactly when the decision is false. -/
theorem c4_should_upload (ttl now : ℚ) (cache : Cache) (p h : String)
    (hnd : keysNodup cache) :
    ((shouldUpload ttl cache p h now).1 = true ↔
      (alLookup (purgeCache ttl now cache) p = none ∨
        ∃ e : CacheEntry, alLookup (purgeCache ttl now cache) p = some e ∧ e.hash ≠ h)) ∧
    ((shouldUpload ttl cache p h now).2 = purgeCache ttl now cache) ∧
    (∀ (q : String) (e : CacheEntry),
        alLookup (purgeCache ttl now cache) q = some e ↔
          (alLookup cache q = some e ∧ now - e.ts ≤ ttl)) ∧
    (∀ e : CacheEntry, alLookup cache p = some e → ttl < now - e.ts →
        (shouldUpload ttl cache p h now).1 = true) ∧
    (∀ (md5 : Bytes → String) (r2 : ReadResult) (net : NetResult)
        (table : TimerTable) (b1 : Bytes),
        ((uploadFile md5 ttl p ⟨true, .ok b1, r2, net, now⟩ cache table).out
            = .skipUnchanged ↔
          (shouldUpload ttl cache p (md5 b1) now).1 = false)) := by
  have hpurge : ∀ (q : String) (e : CacheEntry),
      alLookup (purgeCache ttl now cache) q = some e ↔
        (alLookup cache q = some e ∧ now - e.ts ≤ ttl) := by
    intro q e
    rw [purgeCache, alLookup_filter _ _ _ _ hnd]
    simp
  refine ⟨?_, ?_, hpurge, ?_, ?_⟩
  · cases hlk : alLookup (purgeCache ttl now cache) p with
    | none => simp [shouldUpload, hlk]
    | some e => simp [shouldUpload, hlk]
  · cases hlk : alLookup (purgeCache ttl now cache) p with
    | none => simp [shouldUpload, hlk]
    | some e => simp [shouldUpload, hlk]
  · intro e he hexp
    cases hlk : alLookup (purgeCache ttl now cache) p with
    | none => simp [shouldUpload, hlk]
    | some e2 =>
        exfalso
        have h2 := (hpurge p e2).mp hlk
        rw [he] at h2
        have : e = e2 := by injection h2.1
        subst this
        linarith [h2.2]
  · intro md5 r2 net table b1
    cases hlk : alLookup (purgeCache ttl now cache) p with
    | none =>
        cases r2 with
        | err => simp [uploadFile, shouldUpload, hlk]
        | ok b2 =>
            cases net with
            | netErr => simp [uploadFile, shouldUpload, hlk]
            | resp status bodyOk => simp [uploadFile, shouldUpload, hlk]
    | some e =>
        by_cases hh : (e.hash == md5 b1) = true
        · simp [uploadFile, shouldUpload, hlk, hh]
        · simp only [Bool.not_eq_true] at hh
          cases r2 with
          | err => simp [uploadFile, shouldUpload, hlk, hh]
          | ok b2 =>
              cases net with
              | netErr => simp [uploadFile, shouldUpload, hlk, hh]
              | resp status bodyOk => simp [uploadFile, shouldUpload, hlk, hh]

theorem c4_should_upload_witness :
    (shouldUpload 300 [("p", ⟨"h", 0⟩)] "p" "h" 400).1 = true :=
  (c4_should_upload 300 400 [("p", ⟨"h", 0⟩)] "p" "h"
      (by simp [keysNodup])).2.2.2.1
    ⟨"h", 0⟩ (by simp [alLookup]) (by norm_num)

/-- Claim C5 counterexample: after a schedule at time 0 (delay 1) and the
timer firing at time 1, the Uploader is running (timer status `firing`)
while the pending-task table still holds the entry for its path — the
entry is not removed before the Uploader runs as the claim states. -/
theorem c5_counterexample :
    (runTrace md5c (initState 1 300) [.sched "p" 0, .fire 0 1]).map
      (fun s => (s.timers.map TimerRec.status, alLookup s.table "p")) =
    some ([.firing], some 0) := by
  norm_num +decide [runTrace, stepEvent, applySchedule, cancelTimer, setStatus,
    alLookup, alInsert, cleanupTimer, uploadFile, timeOk, initState, md5c, List.map]

/-- Claim C5 amended: a firing timer leaves the pending-task table
untouched (its entry is still present while the Uploader runs); the table
entry for the path — whichever timer it names by then — is removed by the
`_cleanup_timer` call at the end of `_upload_file`, on every exit path,
so after the upload routine returns no entry remains for the path. -/
theorem c5_amended (md5 : Bytes → String) (ttl : ℚ) (p : String)
    (env : UploadEnv) (cache : Cache) (table : TimerTable)
    (s s2 : SchedState) (i : Nat) (t : ℚ) (hnd : keysNodup table)
    (hstep : stepEvent md5 s (.fire i t) = some s2) :
    s2.table = s.table ∧
    (uploadFile md5 ttl p env cache table).table = cleanupTimer table p ∧
    alLookup (uploadFile md5 ttl p env cache table).table p = none := by
  refine ⟨?_, ?_, ?_⟩
  · simp only [stepEvent] at hstep
    split at hstep
    · split at hstep
      · cases hstep
        rfl
      · exact absurd hstep (by simp)
    · exact absurd hstep (by simp)
  · obtain ⟨e1, r1, r2, net, now⟩ := env
    cases e1
    · simp [uploadFile]
    · cases r1 with
      | err => simp [uploadFile]
      | ok b1 =>
          cases hlk : alLookup (purgeCache ttl now cache) p with
          | none =>
              cases r2 with
              | err => simp [uploadFile, hlk]
              | ok b2 =>
                  cases net with
                  | netErr => simp [uploadFile, hlk]
                  | resp status bodyOk => simp [uploadFile, hlk]
          | some e =>
              by_cases hh : (e.hash == md5 b1) = true
              · simp [uploadFile, hlk, hh]
              · simp only [Bool.not_eq_true] at hh
                cases r2 with
                | err => simp [uploadFile, hlk, hh]
                | ok b2 =>
                    cases net with
                    | netErr => simp [uploadFile, hlk, hh]
                    | resp status bodyOk => simp [uploadFile, hlk, hh]
  · obtain ⟨e1, r1, r2, net, now⟩ := env
    have hone : alLookup (cleanupTimer table p) p = none :=
      alLookup_cleanupTimer_self table p hnd
    cases e1
    · simpa [uploadFile] using hone
    · cases r1 with
      | err => simpa [uploadFile] using hone
      | ok b1 =>
          cases hlk : alLookup (purgeCache ttl now cache) p with
          | none =>
              cases r2 with
              | err => simpa [uploadFile, hlk] using hone
              | ok b2 =>
                  cases net with
                  | netErr => simpa [uploadFile, hlk] using hone
                  | resp status bodyOk => simpa [uploadFile, hlk] using hone
          | some e =>
              by_cases hh : (e.hash == md5 b1) = true
              · simpa [uploadFile, hlk, hh] using hone
              · simp only [Bool.not_eq_true] at hh
                cases r2 with
                | err => simpa [uploadFile, hlk, hh] using hone
                | ok b2 =>
                    cases net with
                    | netErr => simpa [uploadFile, hlk, hh] using hone
                    | resp status bodyOk => simpa [uploadFile, hlk, hh] using hone

theorem c5_amended_witness :
    (⟨1, 300, [⟨"p", 1, .firing⟩], [("p", 0)], [], some 1⟩ : SchedState).table
        = (⟨1, 300, [⟨"p", 1, .pending⟩], [("p", 0)], [], some 0⟩ : SchedState).table ∧
    (uploadFile md5c 300 "p" env0 [] [("p", 0)]).table = cleanupTimer [("p", 0)] "p" ∧
    alLookup (uploadFile md5c 300 "p" env0 [] [("p", 0)]).table "p" = none :=
  c5_amended md5c 300 "p" env0 [] [("p", 0)]
    ⟨1, 300, [⟨"p", 1, .pending⟩], [("p", 0)], [], some 0⟩
    ⟨1, 300, [⟨"p", 1, .firing⟩], [("p", 0)], [], some 1⟩
    0 1 (by simp [keysNodup])
    (by norm_num +decide [stepEvent, setStatus, timeOk])

/-- Claim C6 counterexample: in a run that reaches the HTTP POST, both the
second file open and the POST itself happen with the content-cache lock
held (the `requests.post` call sits inside the `with self.cache_lock:`
block of `_upload_file`), contradicting the claim that no lock is ever
held during a file read or the network call. -/
theorem c6_counterexample :
    (⟨.httpPost, true, false⟩ : IOEvent) ∈
      (uploadFile md5c 300 "p" ⟨true, .ok [1], .ok [1], .resp 200 true, 0⟩ [] []).io ∧
    (⟨.openPost, true, false⟩ : IOEvent) ∈
      (uploadFile md5c 300 "p" ⟨true, .ok [1], .ok [1], .resp 200 true, 0⟩ [] []).io := by
  constructor <;>
    simp [uploadFile, purgeCache, alLookup, md5c]

/-- Claim C6 amended: the pending-task lock is never held during any
blocking I/O of `_upload_file`, and the content-cache lock is not held
during the fingerprint read; but the second file open and the HTTP POST
always run with the content-cache lock held. -/
theorem c6_amended (md5 : Bytes → String) (ttl : ℚ) (p : String)
    (env : UploadEnv) (cache : Cache) (table : TimerTable) :
    (∀ e ∈ (uploadFile md5 ttl p env cache table).io, e.timerHeld = false) ∧
    (∀ e ∈ (uploadFile md5 ttl p env cache table).io,
        e.action = .readHash → e.cacheHeld = false) ∧
    (∀ e ∈ (uploadFile md5 ttl p env cache table).io,
        (e.action = .openPost ∨ e.action = .httpPost) → e.cacheHeld = true) := by
  obtain ⟨e1, r1, r2, net, now⟩ := env
  cases e1
  · simp [uploadFile]
  · cases r1 with
    | err => simp [uploadFile]
    | ok b1 =>
        cases hlk : alLookup (purgeCache ttl now cache) p with
        | none =>
            cases r2 with
            | err =>
                refine ⟨?_, ?_, ?_⟩ <;> simp [uploadFile, hlk]
            | ok b2 =>
                cases net with
                | netErr =>
                    refine ⟨?_, ?_, ?_⟩ <;> simp [uploadFile, hlk]
                | resp status bodyOk =>
                    refine ⟨?_, ?_, ?_⟩ <;> simp [uploadFile, hlk]
        | some e =>
            by_cases hh : (e.hash == md5 b1) = true
            · refine ⟨?_, ?_, ?_⟩ <;> simp [uploadFile, hlk, hh]
            · simp only [Bool.not_eq_true] at hh
              cases r2 with
              | err =>
                  refine ⟨?_, ?_, ?_⟩ <;> simp [uploadFile, hlk, hh]
              | ok b2 =>
                  cases net with
                  | netErr =>
                      refine ⟨?_, ?_, ?_⟩ <;> simp [uploadFile, hlk, hh]
                  | resp status bodyOk =>
                      refine ⟨?_, ?_, ?_⟩ <;> simp [uploadFile, hlk, hh]

theorem c6_amended_witness :
    (⟨IOAction.httpPost, true, false⟩ : IOEvent).timerHeld = false ∧
    (⟨IOAction.httpPost, true, false⟩ : IOEvent).cacheHeld = true :=
  ⟨(c6_amended md5c 300 "p" ⟨true, .ok [1], .ok [1], .resp 200 true, 0⟩ [] []).1
      ⟨.httpPost, true, false⟩ (by simp [uploadFile, purgeCache, alLookup, md5c]),
   (c6_amended md5c 300 "p" ⟨true, .ok [1], .ok [1], .resp 200 true, 0⟩ [] []).2.2
      ⟨.httpPost, true, false⟩ (by simp [uploadFile, purgeCache, alLookup, md5c])
      (Or.inr rfl)⟩

/-- Claim C3, failing trace: schedule at time 0 (delay 1); the timer fires
at time 1 and while its upload runs a reschedule at time 1 installs a
fresh timer; the finishing upload's `_cleanup_timer` then deletes the
fresh timer's table entry (the fresh timer itself keeps running), so the
next schedule at time 1 no longer sees it and installs yet another timer:
two pending timers for the same path exist at once, and the two timers
created by the two near-simultaneous schedule calls at time 1 both reach
the firing state. -/
theorem c3_invariant_violation :
    (runTrace md5c (initState 1 300) (c3trace.take 5)).map countPending = some 2 ∧
    (runTrace md5c (initState 1 300) c3trace).map
      (fun s => s.timers.map TimerRec.status) = some [.done, .firing, .firing] ∧
    schedEvs c3trace = [("p", 0), ("p", 1), ("p", 1)] ∧
    fireCount c3trace = 3 := by
  refine ⟨?_, ?_, by decide, by decide⟩ <;>
    norm_num +decide [runTrace, stepEvent, applySchedule, cancelTimer, setStatus,
      alLookup, alInsert, alErase, cleanupTimer, uploadFile, countPending, timeOk,
      initState, c3trace, env0, md5c, List.filter, List.map]

theorem runTrace_cons (md5 : Bytes → String) (s s2 : SchedState) (ev : SEvent)
    (tr : List SEvent) (h : runTrace md5 s (ev :: tr) = some s2) :
    ∃ s1 : SchedState, stepEvent md5 s ev = some s1 ∧ runTrace md5 s1 tr = some s2 := by
  unfold runTrace at h
  cases hst : stepEvent md5 s ev with
  | none => rw [hst] at h; exact absurd h (by simp)
  | some s1 => rw [hst] at h; exact ⟨s1, rfl, h⟩

theorem step_time (md5 : Bytes → String) (s s2 : SchedState) (ev : SEvent)
    (h : stepEvent md5 s ev = some s2) :
    timeOk s.time (evTime ev) = true ∧ s2.time = some (evTime ev) := by
  cases ev with
  | sched p t =>
      simp only [stepEvent] at h
      split at h
      · cases h
        exact ⟨by assumption, rfl⟩
      · exact absurd h (by simp)
  | fire i t =>
      simp only [stepEvent] at h
      split at h
      next tm hlk =>
        split at h
        next hc =>
          cases h
          exact ⟨hc.2.2, rfl⟩
        next => exact absurd h (by simp)
      next => exact absurd h (by simp)
  | finish i env =>
      simp only [stepEvent] at h
      split at h
      next tm hlk =>
        split at h
        next hc =>
          cases h
          exact ⟨hc.2, rfl⟩
        next => exact absurd h (by simp)
      next => exact absurd h (by simp)

theorem timeOk_trans (c : Option ℚ) (t u : ℚ) (h : timeOk c t = true) (htu : t ≤ u) :
    timeOk c u = true := by
  cases c with
  | none => simp [timeOk]
  | some a =>
      simp only [timeOk, decide_eq_true_eq] at h ⊢
      linarith

theorem run_time_ge (md5 : Bytes → String) :
    ∀ (tr : List SEvent) (s s2 : SchedState), runTrace md5 s tr = some s2 →
      ∀ ev ∈ tr, timeOk s.time (evTime ev) = true := by
  intro tr
  induction tr with
  | nil => intro s s2 _ ev hev; exact absurd hev (by simp)
  | cons ev0 rest ih =>
      intro s s2 hrun ev hev
      obtain ⟨s1, hst, hrest⟩ := runTrace_cons md5 s s2 ev0 rest hrun
      obtain ⟨ht0, ht1⟩ := step_time md5 s s1 ev0 hst
      rcases List.mem_cons.mp hev with rfl | hmem
      · exact ht0
      · have h2 := ih s1 s2 hrest ev hmem
        rw [ht1] at h2
        simp only [timeOk, decide_eq_true_eq] at h2
        exact timeOk_trans s.time (evTime ev0) (evTime ev) ht0 h2

theorem sched_mem_of_mem_schedEvs (q : String) (t : ℚ) :
    ∀ tr : List SEvent, (q, t) ∈ schedEvs tr → SEvent.sched q t ∈ tr := by
  intro tr
  induction tr with
  | nil => intro h; exact absurd h (by simp [schedEvs])
  | cons ev rest ih =>
      intro h
      cases ev with
      | sched p0 t0 =>
          simp only [schedEvs, List.mem_cons, Prod.mk.injEq] at h
          rcases h with ⟨rfl, rfl⟩ | hmem
          · exact List.mem_cons_self _ _
          · exact List.mem_cons_of_mem _ (ih hmem)
      | fire i tf => exact List.mem_cons_of_mem _ (ih h)
      | finish i env => exact List.mem_cons_of_mem _ (ih h)

theorem fireCount_pos_of_mem (i : Nat) (t : ℚ) :
    ∀ tr : List SEvent, SEvent.fire i t ∈ tr → 0 < fireCount tr := by
  intro tr
  induction tr with
  | nil => intro h; exact absurd h (by simp)
  | cons ev rest ih =>
      intro h
      cases ev with
      | sched p0 t0 =>
          simp only [List.mem_cons] at h
          rcases h with h | hmem
          · exact absurd h (by simp)
          · simpa [fireCount] using ih hmem
      | fire j tf => simp [fireCount]
      | finish j env =>
          simp only [List.mem_cons] at h
          rcases h with h | hmem
          · exact absurd h (by simp)
          · simpa [fireCount] using ih hmem

theorem run_noPending (md5 : Bytes → String) :
    ∀ (tr : List SEvent) (s s2 : SchedState),
      (∀ (k : Nat) (tm : TimerRec), s.timers[k]? = some tm → tm.status ≠ .pending) →
      runTrace md5 s tr = some s2 →
      schedEvs tr = [] →
      fireCount tr = 0 := by
  intro tr
  induction tr with
  | nil => intro s s2 _ _ _; rfl
  | cons ev rest ih =>
      intro s s2 hnp hrun hse
      obtain ⟨s1, hst, hrest⟩ := runTrace_cons md5 s s2 ev rest hrun
      cases ev with
      | sched p0 t0 => exact absurd hse (by simp [schedEvs])
      | fire i tf =>
          exfalso
          simp only [stepEvent] at hst
          split at hst
          next tm hlk =>
            split at hst
            next hc => exact hnp i tm hlk hc.1
            next => exact absurd hst (by simp)
          next => exact absurd hst (by simp)
      | finish i env =>
          simp only [schedEvs] at hse
          simp only [fireCount]
          refine ih s1 s2 ?_ hrest hse
          intro k tm hk
          simp only [stepEvent] at hst
          split at hst
          next tm2 hlk2 =>
            split at hst
            next hc2 =>
              cases hst
              simp only [setStatus] at hk
              split at hk
              next tm3 hlk3 =>
                rw [List.getElem?_set] at hk
                split at hk
                · split at hk
                  · cases hk
                    simp
                  · exact absurd hk (by simp)
                · exact hnp k tm hk
              next => exact hnp k tm hk
            next => exact absurd hst (by simp)
          next => exact absurd hst (by simp)

theorem InvC1_le (p : String) (d : ℚ) (ts : List ℚ) (j : Nat) (s : SchedState)
    (hInv : InvC1 p d ts j s) : j ≤ ts.length := by
  obtain ⟨-, -, -, -, htm⟩ := hInv
  cases j with
  | zero => exact Nat.zero_le _
  | succ j2 =>
      obtain ⟨t, ht, -⟩ := htm j2 (Nat.lt_succ_self j2)
      have hlt : j2 < ts.length := by
        by_contra hcon
        rw [List.getElem?_eq_none (le_of_not_lt hcon)] at ht
        exact absurd ht (by simp)
      omega

theorem InvC1_step (p : String) (d : ℚ) (ts : List ℚ) (j : Nat) (s : SchedState)
    (hInv : InvC1 p d ts j s) (t : ℚ) (ht : ts[j]? = some t) :
    InvC1 p d ts (j + 1) (applySchedule s p t) := by
  obtain ⟨hd, hlen, htab, htime, htm⟩ := hInv
  cases j with
  | zero =>
      have hnil : s.timers = [] := List.length_eq_zero.mp hlen
      simp only [if_pos rfl] at htab
      refine ⟨hd, ?_, ?_, ?_, ?_⟩
      · simp [applySchedule, htab, alLookup, hnil]
      · simp [applySchedule, htab, alLookup, alInsert, hnil]
      · simpa [applySchedule] using ht.symm
      · intro k hk
        have hk0 : k = 0 := by omega
        subst hk0
        refine ⟨t, ht, ?_⟩
        simp [applySchedule, htab, alLookup, hnil, hd]
  | succ j2 =>
      have hlt : j2 < j2 + 1 := Nat.lt_succ_self j2
      obtain ⟨t2, ht2, htm2⟩ := htm j2 hlt
      simp only [Nat.add_sub_cancel, eq_self_iff_true, if_true] at htm2
      simp only [Nat.succ_ne_zero, if_false, Nat.add_sub_cancel] at htab htime
      have hcan : cancelTimer s.timers j2
          = s.timers.set j2 ⟨p, t2 + d, .canceled⟩ := by
        simp [cancelTimer, htm2]
      have hlen2 : (cancelTimer s.timers j2).length = j2 + 1 := by
        rw [hcan, List.length_set, hlen]
      refine ⟨hd, ?_, ?_, ?_, ?_⟩
      · simp [applySchedule, htab, alLookup, hlen2]
      · simp [applySchedule, htab, alLookup, hlen2, alInsert]
      · simpa [applySchedule] using ht.symm
      · intro k hk
        simp only [applySchedule, htab, alLookup, eq_self_iff_true, if_true]
        rcases Nat.lt_succ_iff_lt_or_eq.mp hk with hk2 | hkeq
        · have hlfk : (cancelTimer s.timers j2
              ++ [⟨p, t + s.delay, .pending⟩])[k]? = (cancelTimer s.timers j2)[k]? := by
            rw [List.getElem?_append, if_pos (by rw [hlen2]; exact hk2)]
          by_cases hkj : k = j2
          · subst hkj
            refine ⟨t2, ht2, ?_⟩
            rw [hlfk, hcan, List.getElem?_set, if_pos rfl,
              if_pos (by rw [hlen]; exact hlt)]
            simp [Nat.add_sub_cancel, show ¬ (k = k + 1) by omega]
          · obtain ⟨tk, htk, htmk⟩ := htm k (by omega)
            refine ⟨tk, htk, ?_⟩
            rw [hlfk, hcan, List.getElem?_set, if_neg (fun hcon => hkj hcon.symm), htmk]
            simp [Nat.add_sub_cancel, hkj, show ¬ (k = j2 + 1) by omega]
        · subst hkeq
          refine ⟨t, ht, ?_⟩
          rw [show (j2 + 1 : Nat) = (cancelTimer s.timers j2).length from hlen2.symm,
            List.getElem?_concat_length]
          simp [hd, Nat.add_sub_cancel]

theorem c1_run (p : String) (d : ℚ) (ts : List ℚ)
    (hne : ts ≠ [])
    (hgap : ∀ (k : Nat) (t u : ℚ), ts[k]? = some t → ts[k+1]? = some u → u < t + d)
    (md5 : Bytes → String) :
    ∀ (tr : List SEvent) (j : Nat) (s s2 : SchedState),
      InvC1 p d ts j s →
      runTrace md5 s tr = some s2 →
      schedEvs tr = (ts.drop j).map (fun t => (p, t)) →
      ((∀ (i : Nat) (tf : ℚ), SEvent.fire i tf ∈ tr →
          (i = ts.length - 1 ∧ ∀ tl : ℚ, ts.getLast? = some tl → tl + d ≤ tf)) ∧
       fireCount tr ≤ 1 ∧
       (fireCount tr = 0 → ∃ tm : TimerRec,
          s2.timers[ts.length - 1]? = some tm ∧ tm.status = .pending)) := by
  intro tr
  induction tr with
  | nil =>
      intro j s s2 hInv hrun hse
      have hjle := InvC1_le p d ts j s hInv
      have hdrop : (ts.drop j).map (fun t => (p, t)) = [] := by
        simpa [schedEvs] using hse.symm
      rw [List.map_eq_nil, List.drop_eq_nil_iff_le] at hdrop
      have hjn : j = ts.length := le_antisymm hjle hdrop
      subst hjn
      have hs2 : s2 = s := by simpa [runTrace] using hrun.symm
      subst hs2
      have hpos : 0 < ts.length := List.length_pos.mpr hne
      obtain ⟨-, -, -, -, htm⟩ := hInv
      obtain ⟨t, ht, html⟩ := htm (ts.length - 1) (by omega)
      refine ⟨by simp, by simp [fireCount], ?_⟩
      intro _
      exact ⟨_, html, by simp⟩
  | cons ev rest ih =>
      intro j s s2 hInv hrun hse
      have hjle := InvC1_le p d ts j s hInv
      obtain ⟨s1, hst, hrest⟩ := runTrace_cons md5 s s2 ev rest hrun
      cases ev with
      | sched q t0 =>
          simp only [schedEvs] at hse
          have hjlt : j < ts.length := by
            by_contra hcon
            push_neg at hcon
            rw [List.drop_eq_nil_iff_le.mpr hcon] at hse
            exact absurd hse (by simp)
          rw [List.drop_eq_getElem_cons hjlt, List.map_cons, List.cons.injEq,
            Prod.mk.injEq] at hse
          obtain ⟨⟨hq, ht0⟩, hserest⟩ := hse
          have hq2 : p = q := hq.symm
          subst hq2
          subst ht0
          simp only [stepEvent] at hst
          split at hst
          next htok =>
            cases hst
            have hInv1 := InvC1_step p d ts j s hInv _
              (List.getElem?_eq_getElem hjlt)
            have IH := ih (j + 1) _ s2 hInv1 hrest hserest
            refine ⟨?_, ?_, ?_⟩
            · intro i tf hmem
              rcases List.mem_cons.mp hmem with heq | hmem2
              · exact absurd heq (by simp)
              · exact IH.1 i tf hmem2
            · simpa [fireCount] using IH.2.1
            · intro h0
              exact IH.2.2 (by simpa [fireCount] using h0)
          next => exact absurd hst (by simp)
      | fire i tf =>
          simp only [stepEvent] at hst
          split at hst
          next tm hlk =>
            split at hst
            next hc =>
              cases hst
              obtain ⟨hdl, hlen, htab, htime, htm⟩ := hInv
              have hi : i < j := by
                by_contra hcon
                push_neg at hcon
                rw [List.getElem?_eq_none (by rw [hlen]; exact hcon)] at hlk
                exact absurd hlk (by simp)
              have hj1 : 1 ≤ j := by omega
              obtain ⟨ti, hti, htmi⟩ := htm i hi
              rw [hlk] at htmi
              have htmeq : tm = ⟨p, ti + d,
                  if i = j - 1 then .pending else .canceled⟩ := Option.some.inj htmi
              have hij : i = j - 1 := by
                by_contra hcon
                rw [htmeq] at hc
                simp [hcon] at hc
              have hfa : ti + d ≤ tf := by
                have h2 := hc.2.1
                rw [htmeq] at h2
                exact h2
              subst hij
              rcases lt_or_eq_of_le hjle with hjlt | hjeq
              · exfalso
                have hsr : schedEvs rest = (ts.drop j).map (fun t => (p, t)) := by
                  simpa [schedEvs] using hse
                have hmem : SEvent.sched p (ts.get ⟨j, hjlt⟩) ∈ rest := by
                  apply sched_mem_of_mem_schedEvs
                  rw [hsr, List.drop_eq_getElem_cons hjlt, List.map_cons]
                  exact List.mem_cons_self _ _
                have htOk := run_time_ge md5 rest _ s2 hrest _ hmem
                simp only [evTime, timeOk, decide_eq_true_eq] at htOk
                have hgapj := hgap (j - 1) ti (ts.get ⟨j, hjlt⟩) hti
                  (by rw [show j - 1 + 1 = j by omega]
                      simpa using List.getElem?_eq_getElem hjlt)
                linarith
              · have hnp : ∀ (k : Nat) (tm2 : TimerRec),
                    (setStatus s.timers (j - 1) TimerStatus.firing)[k]? = some tm2 →
                    tm2.status ≠ .pending := by
                  intro k tm2 hk
                  simp only [setStatus, hlk] at hk
                  rw [List.getElem?_set] at hk
                  split at hk
                  · split at hk
                    · cases hk
                      simp
                    · exact absurd hk (by simp)
                  · by_cases hkj : k < j
                    · obtain ⟨tk, htk, htmk⟩ := htm k hkj
                      rw [htmk] at hk
                      cases hk
                      next hne2 =>
                        simp
                        omega
                    · rw [List.getElem?_eq_none (by rw [hlen]; omega)] at hk
                      exact absurd hk (by simp)
                have hserest : schedEvs rest = [] := by
                  have := hse
                  simp only [schedEvs] at this
                  rw [this, hjeq, List.drop_length]
                  simp
                have hnofire : fireCount rest = 0 :=
                  run_noPending md5 rest _ s2 hnp hrest hserest
                refine ⟨?_, ?_, ?_⟩
                · intro i2 tf2 hmem
                  rcases List.mem_cons.mp hmem with heq | hmem2
                  · injection heq with h1 h2
                    subst h1
                    subst h2
                    refine ⟨by omega, ?_⟩
                    intro tl htl
                    rw [List.getLast?_eq_getElem?, ← hjeq, hti] at htl
                    cases htl
                    exact hfa
                  · have := fireCount_pos_of_mem i2 tf2 rest hmem2
                    omega
                · simp [fireCount, hnofire]
                · intro h0
                  simp [fireCount, hnofire] at h0
            next => exact absurd hst (by simp)
          next => exact absurd hst (by simp)
      | finish i env =>
          exfalso
          simp only [stepEvent] at hst
          split at hst
          next tm hlk =>
            split at hst
            next hc =>
              obtain ⟨-, hlen, -, -, htm⟩ := hInv
              have hi : i < j := by
                by_contra hcon
                push_neg at hcon
                rw [List.getElem?_eq_none (by rw [hlen]; exact hcon)] at hlk
                exact absurd hlk (by simp)
              obtain ⟨ti, -, htmi⟩ := htm i hi
              rw [hlk] at htmi
              have htmeq := Option.some.inj htmi
              rw [htmeq] at hc
              by_cases hij : i = j - 1 <;> simp [hij] at hc
            next => exact absurd hst (by simp)
          next => exact absurd hst (by simp)

theorem runTrace_append (md5 : Bytes → String) :
    ∀ (l1 l2 : List SEvent) (s : SchedState),
      runTrace md5 s (l1 ++ l2)
        = (runTrace md5 s l1).bind (fun s1 => runTrace md5 s1 l2) := by
  intro l1
  induction l1 with
  | nil => intro l2 s; simp [runTrace]
  | cons ev rest ih =>
      intro l2 s
      simp only [List.cons_append, runTrace]
      cases h : stepEvent md5 s ev with
      | none => simp
      | some s1 => simp [ih]

theorem schedEvs_append (l1 l2 : List SEvent) :
    schedEvs (l1 ++ l2) = schedEvs l1 ++ schedEvs l2 := by
  induction l1 with
  | nil => simp [schedEvs]
  | cons ev rest ih => cases ev <;> simp [schedEvs, ih]

theorem fireCount_append (l1 l2 : List SEvent) :
    fireCount (l1 ++ l2) = fireCount l1 + fireCount l2 := by
  induction l1 with
  | nil => simp [fireCount]
  | cons ev rest ih => cases ev <;> simp [fireCount, ih] <;> omega

theorem schedEvs_map_sched (p : String) (l : List ℚ) :
    schedEvs (l.map (SEvent.sched p)) = l.map (fun t => (p, t)) := by
  induction l with
  | nil => simp [schedEvs]
  | cons t rest ih => simp [schedEvs, ih]

theorem fireCount_map_sched (p : String) (l : List ℚ) :
    fireCount (l.map (SEvent.sched p)) = 0 := by
  induction l with
  | nil => simp [fireCount]
  | cons t rest ih => simp [fireCount, ih]

theorem c1_exists (p : String) (d : ℚ) (ts : List ℚ) (ttl : ℚ)
    (hd : 0 ≤ d)
    (hmono : ∀ (k : Nat) (t u : ℚ), ts[k]? = some t → ts[k+1]? = some u → t ≤ u)
    (md5 : Bytes → String) :
    ∀ j : Nat, j ≤ ts.length →
      ∃ s : SchedState,
        runTrace md5 (initState d ttl) ((ts.take j).map (SEvent.sched p)) = some s ∧
        InvC1 p d ts j s := by
  intro j
  induction j with
  | zero =>
      intro _
      refine ⟨initState d ttl, by simp [runTrace], ?_⟩
      refine ⟨rfl, rfl, by simp [initState], by simp [initState], ?_⟩
      intro k hk
      exact absurd hk (by omega)
  | succ j2 ihj =>
      intro hle
      have hj2lt : j2 < ts.length := by omega
      obtain ⟨s, hrun, hInv⟩ := ihj (by omega)
      have htj : ts[j2]? = some (ts.get ⟨j2, hj2lt⟩) := by
        simpa using List.getElem?_eq_getElem hj2lt
      have htake : (ts.take (j2+1)).map (SEvent.sched p)
          = (ts.take j2).map (SEvent.sched p)
            ++ [SEvent.sched p (ts.get ⟨j2, hj2lt⟩)] := by
        rw [List.take_succ, htj]
        simp only [Option.toList, List.map_append, List.map_cons, List.map_nil]
      have htok : timeOk s.time (ts.get ⟨j2, hj2lt⟩) = true := by
        obtain ⟨-, -, -, htime, htm⟩ := hInv
        cases j2 with
        | zero =>
            rw [htime]
            simp [timeOk]
        | succ j3 =>
            rw [htime]
            simp only [Nat.succ_ne_zero, if_false, Nat.add_sub_cancel]
            obtain ⟨t3, ht3, -⟩ := htm j3 (Nat.lt_succ_self j3)
            rw [ht3]
            simp only [timeOk, decide_eq_true_eq]
            exact hmono j3 t3 _ ht3 (by simpa using List.getElem?_eq_getElem hj2lt)
      refine ⟨applySchedule s p (ts.get ⟨j2, hj2lt⟩), ?_, ?_⟩
      · rw [htake, runTrace_append, hrun]
        have htok2 : timeOk s.time ts[j2] = true := by simpa using htok
        simp [runTrace, stepEvent, htok2]
      · exact InvC1_step p d ts j2 s hInv _ htj

/-- Claim C1: for a burst of schedule calls for one path whose gaps are
each strictly below the delay `d` (call times listed in `ts`), (i) each
schedule call cancels the path's existing pending timer before installing
the new one; (ii) in every valid interleaving whose schedule calls are
exactly the burst, any Uploader invocation is the firing of the timer
armed by the last call, at a time at least `d` after that last call, at
most one invocation occurs, and a run that completes (no timer left
pending) has exactly one; (iii) such a completing run exists. -/
theorem c1_debounce (p : String) (d : ℚ) (ts : List ℚ) (ttl : ℚ)
    (hne : ts ≠ []) (hd : 0 ≤ d)
    (hmono : ∀ (k : Nat) (t u : ℚ), ts[k]? = some t → ts[k+1]? = some u → t ≤ u)
    (hgap : ∀ (k : Nat) (t u : ℚ), ts[k]? = some t → ts[k+1]? = some u → u < t + d) :
    (∀ (s : SchedState) (i : Nat) (tm : TimerRec) (t : ℚ),
        alLookup s.table p = some i → s.timers[i]? = some tm →
        tm.status = .pending →
        ((applySchedule s p t).timers[i]? = some { tm with status := .canceled } ∧
         alLookup (applySchedule s p t).table p = some s.timers.length ∧
         (applySchedule s p t).timers[s.timers.length]?
           = some ⟨p, t + s.delay, .pending⟩)) ∧
    (∀ (md5 : Bytes → String) (tr : List SEvent) (s2 : SchedState),
        runTrace md5 (initState d ttl) tr = some s2 →
        schedEvs tr = ts.map (fun t => (p, t)) →
        ((∀ (i : Nat) (tf : ℚ), SEvent.fire i tf ∈ tr →
            (i = ts.length - 1 ∧ ∀ tl : ℚ, ts.getLast? = some tl → tl + d ≤ tf)) ∧
         fireCount tr ≤ 1 ∧
         (isComplete s2 → fireCount tr = 1))) ∧
    (∀ md5 : Bytes → String, ∃ (tr : List SEvent) (s2 : SchedState),
        runTrace md5 (initState d ttl) tr = some s2 ∧
        schedEvs tr = ts.map (fun t => (p, t)) ∧
        fireCount tr = 1 ∧ isComplete s2) := by
  refine ⟨?_, ?_, ?_⟩
  · intro s i tm t hlk htm hpend
    have hilt : i < s.timers.length := by
      by_contra hcon
      push_neg at hcon
      rw [List.getElem?_eq_none hcon] at htm
      exact absurd htm (by simp)
    have hcan : cancelTimer s.timers i
        = s.timers.set i { tm with status := .canceled } := by
      simp [cancelTimer, htm, hpend]
    have hcanlen : (cancelTimer s.timers i).length = s.timers.length := by
      rw [hcan, List.length_set]
    refine ⟨?_, ?_, ?_⟩
    · simp only [applySchedule, hlk]
      rw [List.getElem?_append, if_pos (by rw [hcanlen]; exact hilt), hcan,
        List.getElem?_set, if_pos rfl, if_pos hilt]
    · simp only [applySchedule, hlk]
      rw [alLookup_alInsert_self, hcanlen]
    · simp only [applySchedule, hlk]
      rw [show s.timers.length = (cancelTimer s.timers i).length from hcanlen.symm,
        List.getElem?_concat_length]
  · intro md5 tr s2 hrun hsched
    have hInv0 : InvC1 p d ts 0 (initState d ttl) := by
      refine ⟨rfl, rfl, by simp [initState], by simp [initState], ?_⟩
      intro k hk
      exact absurd hk (by omega)
    have H := c1_run p d ts hne hgap md5 tr 0 (initState d ttl) s2 hInv0 hrun
      (by simpa using hsched)
    refine ⟨H.1, H.2.1, ?_⟩
    intro hcomp
    have hle1 := H.2.1
    rcases Nat.eq_zero_or_pos (fireCount tr) with h0 | hposf
    · obtain ⟨tm, hget, hst⟩ := H.2.2 h0
      exact absurd hst (hcomp _ tm hget)
    · omega
  · intro md5
    obtain ⟨s, hrun, hInv⟩ := c1_exists p d ts ttl hd hmono md5 ts.length le_rfl
    have hpos : 0 < ts.length := List.length_pos.mpr hne
    obtain ⟨hdl, hlen, htab, htime, htm⟩ := hInv
    obtain ⟨tl, htl, html⟩ := htm (ts.length - 1) (by omega)
    simp only [eq_self_iff_true, if_true] at html
    have hstep : stepEvent md5 s (SEvent.fire (ts.length - 1) (tl + d))
        = some { s with timers := setStatus s.timers (ts.length - 1) .firing,
                        time := some (tl + d) } := by
      have hcnd : timeOk s.time (tl + d) = true := by
        rw [htime, if_neg (by omega), htl]
        simp only [timeOk, decide_eq_true_eq]
        linarith
      simp [stepEvent, html, hcnd]
    refine ⟨ts.map (SEvent.sched p) ++ [SEvent.fire (ts.length - 1) (tl + d)],
      { s with timers := setStatus s.timers (ts.length - 1) .firing,
               time := some (tl + d) }, ?_, ?_, ?_, ?_⟩
    · rw [runTrace_append,
        show ts.map (SEvent.sched p) = (ts.take ts.length).map (SEvent.sched p) by
          rw [List.take_length],
        hrun]
      simp [runTrace, hstep]
    · rw [schedEvs_append, schedEvs_map_sched]
      simp [schedEvs]
    · rw [fireCount_append, fireCount_map_sched]
      simp [fireCount]
    · intro k tm2 hk
      simp only [setStatus, html] at hk
      rw [List.getElem?_set] at hk
      split at hk
      · split at hk
        · cases hk
          simp
        · exact absurd hk (by simp)
      · next hne3 =>
          by_cases hkl : k < ts.length
          · obtain ⟨tk, -, htmk⟩ := htm k hkl
            rw [htmk] at hk
            cases hk
            simp
            omega
          · rw [List.getElem?_eq_none (by rw [hlen]; omega)] at hk
            exact absurd hk (by simp)

theorem c1_debounce_witness :
    ((applySchedule ⟨2, 300, [⟨"f", 2, .pending⟩], [("f", 0)], [], some 0⟩ "f" 1).timers[0]?
        = some ⟨"f", 2, .canceled⟩ ∧
      alLookup (applySchedule ⟨2, 300, [⟨"f", 2, .pending⟩], [("f", 0)], [], some 0⟩ "f" 1).table "f"
        = some 1 ∧
      (applySchedule ⟨2, 300, [⟨"f", 2, .pending⟩], [("f", 0)], [], some 0⟩ "f" 1).timers[1]?
        = some ⟨"f", 1 + 2, .pending⟩) ∧
    (∃ (tr : List SEvent) (s2 : SchedState),
        runTrace md5c (initState 2 300) tr = some s2 ∧
        schedEvs tr = [(0 : ℚ), 1].map (fun t => ("f", t)) ∧
        fireCount tr = 1 ∧ isComplete s2) :=
  have hmono : ∀ (k : Nat) (t u : ℚ),
      [(0 : ℚ), 1][k]? = some t → [(0 : ℚ), 1][k+1]? = some u → t ≤ u := by
    intro k t u h1 h2
    rcases k with _ | _ | n
    · simp at h1 h2
      subst h1
      subst h2
      norm_num
    · simp at h2
    · simp at h1
  have hgap : ∀ (k : Nat) (t u : ℚ),
      [(0 : ℚ), 1][k]? = some t → [(0 : ℚ), 1][k+1]? = some u → u < t + 2 := by
    intro k t u h1 h2
    rcases k with _ | _ | n
    · simp at h1 h2
      subst h1
      subst h2
      norm_num
    · simp at h2
    · simp at h1
  ⟨(c1_debounce "f" 2 [(0 : ℚ), 1] 300 (by simp) (by norm_num) hmono hgap).1
      ⟨2, 300, [⟨"f", 2, .pending⟩], [("f", 0)], [], some 0⟩ 0 ⟨"f", 2, .pending⟩ 1
      (by simp [alLookup]) rfl rfl,
   (c1_debounce "f" 2 [(0 : ℚ), 1] 300 (by simp) (by norm_num) hmono hgap).2.2 md5c⟩
